import Mathlib

/-!
Shallow embedding of the VSplitter core (`src/main.py`): the interval
resolver `fix_intervals`, the job-planning loop of `main`, and the
`build_clip` invocation builder.  Python lists of timestamp strings become
`List String`; a clip-range entry `[name, interval]` becomes a pair; the
insertion-ordered option dict becomes an association list; `assert`
failures and other raised exceptions become `Except.error` carrying the
message.
-/

namespace VSplitter

/-- One clip-range entry of a source file, Python `[name, interval]`:
the clip name and its list of timestamp strings. -/
abbrev Clip := String × List String

/-- Python `repr` of a string as it appears inside an f-string formatting of
a list (quotes only; escaping of exotic characters is not modelled, the
timestamps at play are plain `HH:MM:SS` text). -/
def pyStrRepr (s : String) : String := "\x27" ++ s ++ "\x27"

/-- Python `str` of a list of strings, as produced by an f-string
`f"{interval}"`. -/
def pyListRepr (l : List String) : String :=
  "[" ++ String.intercalate ", " (l.map pyStrRepr) ++ "]"

/-- The text of the `assert 0 < len(interval) < 3` message in
`fix_intervals` (`src/main.py` line 15) that precedes the clip name. -/
def conflictPrefix (interval : List String) : String :=
  "Conflict in interval " ++ pyListRepr interval ++ ", file: "

/-- The full `fix_intervals` assertion message
`f"Conflict in interval {interval}, file: {name}"`. -/
def conflictMsg (name : String) (interval : List String) : String :=
  conflictPrefix interval ++ name

/-- Message of a Python `IndexError` from `prev_interval[-1]` on an empty
list (unreachable in practice, kept for faithfulness). -/
def indexErrMsg : String := "IndexError: list index out of range"

/-- One iteration of the `fix_intervals` loop body (`src/main.py` lines
10-25) at index `i` of `n` clips.  `prev` is the element `clip_ranges[i-1]`
as already processed by the earlier iterations (the loop mutates the list
in place, so indexing `i-1` sees the fixed value); it is `none` only when
`i = 0`.  Python `interval.insert(0, x)` prepends `x`;
`prev_interval[-1]` is the last element or an `IndexError`. -/
def fixOne (n i : Nat) (prev : Option Clip) (c : Clip) : Except String Clip :=
  if 0 < c.2.length ∧ c.2.length < 3 then
    if c.2.length = 1 then
      if i = 0 then Except.ok (c.1, "00:00:00" :: c.2)
      else if i = n - 1 then Except.ok (c.1, c.2)
      else
        match prev with
        | some (_, prev_interval) =>
          match prev_interval.getLast? with
          | some prev_end => Except.ok (c.1, prev_end :: c.2)
          | none => Except.error indexErrMsg
        | none => Except.error indexErrMsg
    else Except.ok (c.1, c.2)
  else Except.error (conflictMsg c.1 c.2)

/-- The `fix_intervals` loop over the remaining clips, carrying the total
length `n`, the current index `i` and the previously processed clip. -/
def fixIntervalsAux (n : Nat) : Nat → Option Clip → List Clip → Except String (List Clip)
  | _, _, [] => Except.ok []
  | i, prev, c :: rest =>
    match fixOne n i prev c with
    | Except.error e => Except.error e
    | Except.ok c2 =>
      match fixIntervalsAux n (i + 1) (some c2) rest with
      | Except.error e => Except.error e
      | Except.ok rest2 => Except.ok (c2 :: rest2)

/-- `fix_intervals` (`src/main.py` lines 8-27).  The Python function
mutates the interval lists of `clip_ranges` in place and returns the same
list object; the embedding returns the resulting (post-mutation) list, or
the message of the failed assertion. -/
def fix_intervals (clip_ranges : List Clip) : Except String (List Clip) :=
  fixIntervalsAux clip_ranges.length 0 none clip_ranges

/-- The state of the caller's `clip_ranges` after a successful
`fix_intervals` call.  In Python, `interval.insert(0, _)` mutates the
inner lists of the argument itself and the function returns that same
object, so on success the argument's post-state equals the returned
sequence (on an assertion failure the run aborts, so only the successful
post-state is modelled and an erroring input is mapped to itself). -/
def clipRangesAfterFix (cr : List Clip) : List Clip :=
  match fix_intervals cr with
  | Except.ok out => out
  | Except.error _ => cr

/-- A planned extraction job: source path, final output path, and the
insertion-ordered option dict `config` built by the `main` loop. -/
structure Job where
  source_path : String
  output_path : String
  options : List (String × String)
deriving Repr, DecidableEq

/-- The ffmpeg invocation built by `build_clip` (`src/main.py` lines
29-31): the global option `y` (overwrite output), the input path, the
output path and the per-output option dict. -/
structure Invocation where
  global_options : List String
  input_path : String
  output_path : String
  output_options : List (String × String)
deriving Repr, DecidableEq

/-- `build_clip` (`src/main.py` line 30):
`FFmpeg().option('y').input(source_path).output(file_output_path, config)`. -/
def build_clip (source_path file_output_path : String) (config : List (String × String)) : Invocation :=
  { global_options := ["y"]
    input_path := source_path
    output_path := file_output_path
    output_options := config }

/-- Python `s.split('.')`: cut at every dot, keeping empty pieces;
always returns at least one piece. -/
def pySplitDotAux : List Char → List Char → List String
  | acc, [] => [String.mk acc.reverse]
  | acc, c :: cs =>
    if c = '.' then String.mk acc.reverse :: pySplitDotAux [] cs
    else pySplitDotAux (c :: acc) cs

/-- Python `s.split('.')` on a whole string. -/
def pySplitDot (s : String) : List String := pySplitDotAux [] s.data

/-- `source_path.split('.')[-1]` (`src/main.py` line 51): the last piece
(the split list is never empty, so the default is never used). -/
def sourceExt (source_path : String) : String := (pySplitDot source_path).getLastD ""

/-- Does the string start with a slash (for `os.path.join`)? -/
def startsWithSlash (s : String) : Bool :=
  match s.data with
  | [] => false
  | c :: _ => c = '/'

/-- Does the string end with a slash (for `os.path.join`)? -/
def endsWithSlash (s : String) : Bool :=
  match s.data.getLast? with
  | some c => c = '/'
  | none => false

/-- POSIX `os.path.join(a, b)` for two components (`src/main.py` line
65): an absolute `b` replaces `a`; otherwise the parts are joined with a
single separator. -/
def osPathJoin (a b : String) : String :=
  if startsWithSlash b then b
  else if a = "" then b
  else if endsWithSlash a then a ++ b
  else a ++ "/" ++ b

/-- Message of the `assert 0 < len(interval) < 3` in the `main` loop
(`src/main.py` line 59) that precedes the clip name. -/
def incompatiblePrefix (interval : List String) : String :=
  "Incompatible interval length " ++ toString interval.length ++ " -> "
    ++ pyListRepr interval ++ ", file: "

/-- The full `main`-loop assertion message. -/
def incompatibleMsg (name : String) (interval : List String) : String :=
  incompatiblePrefix interval ++ name

/-- Message of the Python `ValueError` raised by `start, end = interval`
when the interval does not hold exactly two values. -/
def unpackErrMsg : String := "ValueError: unpacking interval requires exactly 2 values"

/-- One iteration of the planning loop body of `main` (`src/main.py`
lines 57-77) at index `i` of `n` fixed clips: asserts the interval
length, builds the option dict `{"codec:v": "copy", "codec:a": "copy"}`,
the output path, then `ss` from the start and `to` from the end only when
the end is a truthy (non-empty) string. -/
def planClip (output_dir source_path source_ext : String) (n i : Nat) (c : Clip) :
    Except String Job :=
  if 0 < c.2.length ∧ c.2.length < 3 then
    if i = n - 1 ∧ c.2.length = 1 then
      match c.2 with
      | [t] =>
        Except.ok
          { source_path := source_path
            output_path := osPathJoin output_dir (c.1 ++ "." ++ source_ext)
            options := [("codec:v", "copy"), ("codec:a", "copy"), ("ss", t)] }
      | _ => Except.error indexErrMsg
    else
      match c.2 with
      | [s, e] =>
        Except.ok
          { source_path := source_path
            output_path := osPathJoin output_dir (c.1 ++ "." ++ source_ext)
            options := [("codec:v", "copy"), ("codec:a", "copy"), ("ss", s)]
              ++ (if e ≠ "" then [("to", e)] else []) }
      | _ => Except.error unpackErrMsg
  else Except.error (incompatibleMsg c.1 c.2)

/-- The planning loop of `main` over the fixed clips of one source. -/
def planClips (output_dir source_path source_ext : String) (n : Nat) :
    Nat → List Clip → Except String (List Job)
  | _, [] => Except.ok []
  | i, c :: rest =>
    match planClip output_dir source_path source_ext n i c with
    | Except.error e => Except.error e
    | Except.ok j =>
      match planClips output_dir source_path source_ext n (i + 1) rest with
      | Except.error e => Except.error e
      | Except.ok js => Except.ok (j :: js)

/-- Planning for one source file (`src/main.py` lines 48-77): extract the
extension, fix the intervals, then plan every clip. -/
def planSource (output_dir source_path : String) (clip_ranges : List Clip) :
    Except String (List Job) :=
  match fix_intervals clip_ranges with
  | Except.error e => Except.error e
  | Except.ok fixed => planClips output_dir source_path (sourceExt source_path) fixed.length 0 fixed

/-- A `source_files` entry of `split_config.json`. -/
structure SourceFile where
  path : String
  clip_ranges : List Clip
deriving Repr, DecidableEq

/-- The whole `split_config.json` document. -/
structure SplitsConfig where
  output_dir : String
  source_files : List SourceFile
deriving Repr, DecidableEq

/-- The outer loop of `main` over all source files, concatenating the
planned jobs in order; the first raised assertion aborts everything. -/
def planSources (output_dir : String) : List SourceFile → Except String (List Job)
  | [] => Except.ok []
  | s :: rest =>
    match planSource output_dir s.path s.clip_ranges with
    | Except.error e => Except.error e
    | Except.ok js =>
      match planSources output_dir rest with
      | Except.error e => Except.error e
      | Except.ok more => Except.ok (js ++ more)

/-- The pure planning part of `main` (`src/main.py` lines 39-77). -/
def planMain (cfg : SplitsConfig) : Except String (List Job) :=
  planSources cfg.output_dir cfg.source_files

/-- The ffmpeg invocations actually handed to `asyncio.gather`
(`src/main.py` line 79).  The `gather` call sits after both loops, and an
assertion raised while planning propagates out of `main` before it is
reached, so on a planning error no task is ever awaited (the lazily
created coroutine objects never start). -/
def executedTasks (cfg : SplitsConfig) : List Invocation :=
  match planMain cfg with
  | Except.ok jobs => jobs.map (fun j => build_clip j.source_path j.output_path j.options)
  | Except.error _ => []

/-! ### Lemmas about one `fix_intervals` iteration -/

theorem fixOne_ok_cases {n i : Nat} {prev : Option Clip} {c c2 : Clip}
    (h : fixOne n i prev c = Except.ok c2) :
    c2.1 = c.1 ∧
    ((c.2.length = 2 ∧ c2.2 = c.2) ∨
     (c.2.length = 1 ∧ i = 0 ∧ c2.2 = "00:00:00" :: c.2) ∨
     (c.2.length = 1 ∧ i ≠ 0 ∧ i = n - 1 ∧ c2.2 = c.2) ∨
     (c.2.length = 1 ∧ i ≠ 0 ∧ i ≠ n - 1 ∧
       ∃ pn pl pe, prev = some (pn, pl) ∧ pl.getLast? = some pe ∧ c2.2 = pe :: c.2)) := by
  unfold fixOne at h
  split at h
  · rename_i hlen
    split at h
    · rename_i h1
      split at h
      · rename_i hi0
        cases h
        exact ⟨rfl, Or.inr (Or.inl ⟨h1, hi0, rfl⟩)⟩
      · rename_i hi0
        split at h
        · rename_i hil
          cases h
          exact ⟨rfl, Or.inr (Or.inr (Or.inl ⟨h1, hi0, hil, rfl⟩))⟩
        · rename_i hil
          split at h
          · rename_i pn pl
            split at h
            · rename_i pe hpe
              cases h
              exact ⟨rfl, Or.inr (Or.inr (Or.inr ⟨h1, hi0, hil, pn, pl, pe, rfl, hpe, rfl⟩))⟩
            · exact absurd h (by simp)
          · exact absurd h (by simp)
    · rename_i h1
      cases h
      exact ⟨rfl, Or.inl ⟨by omega, rfl⟩⟩
  · exact absurd h (by simp)

theorem fixOne_ok_len {n i : Nat} {prev : Option Clip} {c c2 : Clip}
    (h : fixOne n i prev c = Except.ok c2) : c2.2.length = 1 ∨ c2.2.length = 2 := by
  obtain ⟨-, hcase⟩ := fixOne_ok_cases h
  rcases hcase with ⟨hl, he⟩ | ⟨hl, -, he⟩ | ⟨hl, -, -, he⟩ | ⟨hl, -, -, pn, pl, pe, -, -, he⟩ <;>
    simp [he, hl]

theorem fixOne_ok_ne_nil {n i : Nat} {prev : Option Clip} {c c2 : Clip}
    (h : fixOne n i prev c = Except.ok c2) : c2.2 ≠ [] := by
  have := fixOne_ok_len h
  refine List.length_pos.mp (by omega)

theorem fixOne_ok_len2 {n i : Nat} {prev : Option Clip} {c c2 : Clip}
    (h : fixOne n i prev c = Except.ok c2) (hil : i ≠ n - 1) : c2.2.length = 2 := by
  obtain ⟨-, hcase⟩ := fixOne_ok_cases h
  rcases hcase with ⟨hl, he⟩ | ⟨hl, -, he⟩ | ⟨hl, -, hil2, he⟩ | ⟨hl, -, -, pn, pl, pe, -, -, he⟩
  · simp [he, hl]
  · simp [he, hl]
  · exact absurd hil2 hil
  · simp [he, hl]

theorem fixOne_ok_input_good {n i : Nat} {prev : Option Clip} {c c2 : Clip}
    (h : fixOne n i prev c = Except.ok c2) : c.2.length = 1 ∨ c.2.length = 2 := by
  obtain ⟨-, hcase⟩ := fixOne_ok_cases h
  rcases hcase with ⟨hl, -⟩ | ⟨hl, -⟩ | ⟨hl, -⟩ | ⟨hl, -⟩ <;> omega

theorem fixOne_ok_of_good {n i : Nat} {prev : Option Clip} {c : Clip}
    (hgood : c.2.length = 1 ∨ c.2.length = 2)
    (hprev : i ≠ 0 → ∃ pc : Clip, prev = some pc ∧ pc.2 ≠ []) :
    ∃ c2, fixOne n i prev c = Except.ok c2 := by
  unfold fixOne
  rw [if_pos (by omega : 0 < c.2.length ∧ c.2.length < 3)]
  by_cases h1 : c.2.length = 1
  · rw [if_pos h1]
    by_cases hi0 : i = 0
    · rw [if_pos hi0]; exact ⟨_, rfl⟩
    · rw [if_neg hi0]
      by_cases hil : i = n - 1
      · rw [if_pos hil]; exact ⟨_, rfl⟩
      · rw [if_neg hil]
        obtain ⟨⟨pn, pl⟩, hp, hne⟩ := hprev hi0
        subst hp
        have hne2 : pl ≠ [] := hne
        obtain ⟨pe, hpe⟩ := Option.isSome_iff_exists.mp (List.getLast?_isSome.mpr hne2)
        exact ⟨(c.1, pe :: c.2), by simp [hpe]⟩
  · rw [if_neg h1]; exact ⟨_, rfl⟩

theorem fixOne_error_cases {n i : Nat} {prev : Option Clip} {c : Clip} {msg : String}
    (h : fixOne n i prev c = Except.error msg)
    (hprev : i ≠ 0 → ∃ pc : Clip, prev = some pc ∧ pc.2 ≠ []) :
    (c.2.length = 0 ∨ 3 ≤ c.2.length) ∧ msg = conflictMsg c.1 c.2 := by
  by_cases hgood : c.2.length = 1 ∨ c.2.length = 2
  · obtain ⟨c2, hc2⟩ := fixOne_ok_of_good (n := n) (i := i) hgood hprev
    rw [hc2] at h
    exact absurd h (by simp)
  · refine ⟨by omega, ?_⟩
    unfold fixOne at h
    rw [if_neg (by omega)] at h
    injection h with h2
    exact h2.symm

/-! ### Lemmas about the `fix_intervals` loop -/

theorem fixAux_length {n : Nat} : ∀ {rest : List Clip} {i : Nat} {prev : Option Clip}
    {out : List Clip}, fixIntervalsAux n i prev rest = Except.ok out → out.length = rest.length := by
  intro rest
  induction rest with
  | nil => intro i prev out h; cases h; rfl
  | cons c rest ih =>
    intro i prev out h
    cases hfo : fixOne n i prev c with
    | error e => simp [fixIntervalsAux, hfo] at h
    | ok c2 =>
      cases haux : fixIntervalsAux n (i + 1) (some c2) rest with
      | error e => simp [fixIntervalsAux, hfo, haux] at h
      | ok rest2 =>
        simp only [fixIntervalsAux, hfo, haux] at h
        cases h
        simp [ih haux]

theorem fixAux_get {n : Nat} : ∀ {rest : List Clip} {i : Nat} {prev : Option Clip}
    {out : List Clip}, fixIntervalsAux n i prev rest = Except.ok out →
    ∀ k c, rest[k]? = some c →
      ∃ p c2, fixOne n (i + k) p c = Except.ok c2 ∧ out[k]? = some c2 ∧
        ((k = 0 ∧ p = prev) ∨ (∃ k2 pc, k = k2 + 1 ∧ p = some pc ∧ out[k2]? = some pc)) := by
  intro rest
  induction rest with
  | nil => intro i prev out h k c hk; simp at hk
  | cons c' rest ih =>
    intro i prev out h k c hk
    cases hfo : fixOne n i prev c' with
    | error e => simp [fixIntervalsAux, hfo] at h
    | ok c2 =>
      cases haux : fixIntervalsAux n (i + 1) (some c2) rest with
      | error e => simp [fixIntervalsAux, hfo, haux] at h
      | ok rest2 =>
        simp only [fixIntervalsAux, hfo, haux] at h
        cases h
        match k with
        | 0 =>
          simp only [List.getElem?_cons_zero, Option.some.injEq] at hk
          subst hk
          exact ⟨prev, c2, by simpa using hfo, by simp, Or.inl ⟨rfl, rfl⟩⟩
        | k2 + 1 =>
          simp only [List.getElem?_cons_succ] at hk
          obtain ⟨p, c3, hfo3, hout3, hcase⟩ := ih haux k2 c hk
          refine ⟨p, c3, ?_, by simpa using hout3, ?_⟩
          · have : i + (k2 + 1) = i + 1 + k2 := by omega
            rw [this]
            exact hfo3
          · rcases hcase with ⟨hk20, hp⟩ | ⟨k3, pc, hk2, hp, houtp⟩
            · subst hk20
              exact Or.inr ⟨0, c2, rfl, hp, by simp⟩
            · subst hk2
              exact Or.inr ⟨k3 + 1, pc, rfl, hp, by simpa using houtp⟩

theorem fixAux_ok {n : Nat} : ∀ {rest : List Clip} {i : Nat} {prev : Option Clip},
    (∀ c ∈ rest, c.2.length = 1 ∨ c.2.length = 2) →
    (i ≠ 0 → ∃ pc : Clip, prev = some pc ∧ pc.2 ≠ []) →
    ∃ out, fixIntervalsAux n i prev rest = Except.ok out := by
  intro rest
  induction rest with
  | nil => exact fun _ _ => ⟨[], rfl⟩
  | cons c rest ih =>
    intro i prev hgood hprev
    obtain ⟨c2, hc2⟩ := fixOne_ok_of_good (n := n) (i := i)
      (hgood c (List.mem_cons_self c rest)) hprev
    obtain ⟨out', hout'⟩ := ih (i := i + 1) (fun c hc => hgood c (List.mem_cons_of_mem _ hc))
      (fun _ => ⟨c2, rfl, fixOne_ok_ne_nil hc2⟩)
    exact ⟨c2 :: out', by simp only [fixIntervalsAux, hc2, hout']⟩

theorem fixAux_error {n : Nat} : ∀ {rest : List Clip} {i : Nat} {prev : Option Clip}
    {msg : String}, fixIntervalsAux n i prev rest = Except.error msg →
    (i ≠ 0 → ∃ pc : Clip, prev = some pc ∧ pc.2 ≠ []) →
    ∃ c ∈ rest, (c.2.length = 0 ∨ 3 ≤ c.2.length) ∧ msg = conflictMsg c.1 c.2 := by
  intro rest
  induction rest with
  | nil => intro i prev msg h _; exact absurd h (by simp [fixIntervalsAux])
  | cons c rest ih =>
    intro i prev msg h hprev
    cases hfo : fixOne n i prev c with
    | error e =>
      simp only [fixIntervalsAux, hfo] at h
      cases h
      obtain ⟨hbad, hmsg⟩ := fixOne_error_cases hfo hprev
      exact ⟨c, List.mem_cons_self c rest, hbad, hmsg⟩
    | ok c2 =>
      cases haux : fixIntervalsAux n (i + 1) (some c2) rest with
      | error e =>
        simp only [fixIntervalsAux, hfo, haux] at h
        cases h
        obtain ⟨c', hmem, hbad, hmsg⟩ := ih haux (fun _ => ⟨c2, rfl, fixOne_ok_ne_nil hfo⟩)
        exact ⟨c', List.mem_cons_of_mem _ hmem, hbad, hmsg⟩
      | ok rest2 => simp [fixIntervalsAux, hfo, haux] at h

theorem fixAux_ok_good {n : Nat} : ∀ {rest : List Clip} {i : Nat} {prev : Option Clip}
    {out : List Clip}, fixIntervalsAux n i prev rest = Except.ok out →
    ∀ c ∈ rest, c.2.length = 1 ∨ c.2.length = 2 := by
  intro rest
  induction rest with
  | nil => intro i prev out _ c hc; simp at hc
  | cons c' rest ih =>
    intro i prev out h c hc
    cases hfo : fixOne n i prev c' with
    | error e => simp [fixIntervalsAux, hfo] at h
    | ok c2 =>
      cases haux : fixIntervalsAux n (i + 1) (some c2) rest with
      | error e => simp [fixIntervalsAux, hfo, haux] at h
      | ok rest2 =>
        rcases List.mem_cons.mp hc with hc | hc
        · subst hc; exact fixOne_ok_input_good hfo
        · exact ih haux c hc

theorem fixAux_pass {n : Nat} : ∀ {rest : List Clip} {i : Nat} {prev : Option Clip},
    (∀ c ∈ rest, c.2.length = 2) → fixIntervalsAux n i prev rest = Except.ok rest := by
  intro rest
  induction rest with
  | nil => intro i prev _; rfl
  | cons c rest ih =>
    intro i prev hfull
    have hc : c.2.length = 2 := hfull c (List.mem_cons_self c rest)
    have hfo : fixOne n i prev c = Except.ok c := by
      unfold fixOne
      rw [if_pos ⟨by omega, by omega⟩, if_neg (by omega)]
    have hrec := @ih (i + 1) (some c)
      (fun c2 hc2 => hfull c2 (List.mem_cons_of_mem _ hc2))
    simp only [fixIntervalsAux, hfo, hrec]

/-! ### `fix_intervals`-level corollaries -/

theorem fix_intervals_ok_of_good {cr : List Clip}
    (hgood : ∀ c ∈ cr, c.2.length = 1 ∨ c.2.length = 2) :
    ∃ out, fix_intervals cr = Except.ok out :=
  fixAux_ok hgood (fun h0 => absurd rfl h0)

theorem fix_intervals_length {cr out : List Clip} (h : fix_intervals cr = Except.ok out) :
    out.length = cr.length :=
  fixAux_length h

theorem fix_intervals_error {cr : List Clip} {msg : String}
    (h : fix_intervals cr = Except.error msg) :
    ∃ c ∈ cr, (c.2.length = 0 ∨ 3 ≤ c.2.length) ∧ msg = conflictMsg c.1 c.2 :=
  fixAux_error h (fun h0 => absurd rfl h0)

theorem fix_intervals_ok_good {cr out : List Clip} (h : fix_intervals cr = Except.ok out) :
    ∀ c ∈ cr, c.2.length = 1 ∨ c.2.length = 2 :=
  fixAux_ok_good h

/-- Every entry of the resolved list is the `fixOne` image of the matching
input entry, with the previous resolved entry feeding the interior rule. -/
theorem fix_intervals_get {cr out : List Clip} (h : fix_intervals cr = Except.ok out)
    (k : Nat) (c : Clip) (hc : cr[k]? = some c) :
    ∃ p c2, fixOne cr.length k p c = Except.ok c2 ∧ out[k]? = some c2 ∧
      ((k = 0 ∧ p = none) ∨ (∃ k2 pc, k = k2 + 1 ∧ p = some pc ∧ out[k2]? = some pc)) := by
  have := fixAux_get (n := cr.length) h k c hc
  simpa using this

/-- Shape of the resolved list: every entry is a non-empty interval of at
most two timestamps, and every entry before the last has exactly two. -/
theorem fix_intervals_shape {cr out : List Clip} (h : fix_intervals cr = Except.ok out)
    (k : Nat) (c2 : Clip) (hc2 : out[k]? = some c2) :
    (c2.2.length = 1 ∨ c2.2.length = 2) ∧ (k ≠ cr.length - 1 → c2.2.length = 2) := by
  have hklt : k < out.length := (List.getElem?_eq_some.mp hc2).1
  have hlen := fix_intervals_length h
  have hklt2 : k < cr.length := by omega
  obtain ⟨c, hc⟩ : ∃ c, cr[k]? = some c := ⟨cr[k], List.getElem?_eq_getElem hklt2⟩
  obtain ⟨p, c3, hfo, hout, -⟩ := fix_intervals_get h k c hc
  rw [hc2] at hout
  cases Option.some.inj hout
  exact ⟨fixOne_ok_len hfo, fun hne => fixOne_ok_len2 hfo hne⟩

/-! ### Option-dict lookups -/

theorem lookup_base (s : String) (tail : List (String × String)) :
    (("codec:v", "copy") :: ("codec:a", "copy") :: ("ss", s) :: tail).lookup "codec:v"
        = some "copy" ∧
    (("codec:v", "copy") :: ("codec:a", "copy") :: ("ss", s) :: tail).lookup "codec:a"
        = some "copy" ∧
    (("codec:v", "copy") :: ("codec:a", "copy") :: ("ss", s) :: tail).lookup "ss" = some s := by
  have h1 : ("codec:v" == "codec:v") = true := by decide
  have h2 : ("codec:a" == "codec:v") = false := by decide
  have h3 : ("codec:a" == "codec:a") = true := by decide
  have h4 : ("ss" == "codec:v") = false := by decide
  have h5 : ("ss" == "codec:a") = false := by decide
  have h6 : ("ss" == "ss") = true := by decide
  refine ⟨?_, ?_, ?_⟩ <;> simp [List.lookup, h1, h2, h3, h4, h5, h6]

theorem lookup_to_nil (s : String) :
    (("codec:v", "copy") :: ("codec:a", "copy") :: ("ss", s) :: []).lookup "to" = none := by
  have h1 : ("to" == "codec:v") = false := by decide
  have h2 : ("to" == "codec:a") = false := by decide
  have h3 : ("to" == "ss") = false := by decide
  simp [List.lookup, h1, h2, h3]

theorem lookup_to_cons (s e : String) :
    (("codec:v", "copy") :: ("codec:a", "copy") :: ("ss", s) :: ("to", e) :: []).lookup "to"
      = some e := by
  have h1 : ("to" == "codec:v") = false := by decide
  have h2 : ("to" == "codec:a") = false := by decide
  have h3 : ("to" == "ss") = false := by decide
  have h4 : ("to" == "to") = true := by decide
  simp [List.lookup, h1, h2, h3, h4]

theorem to_not_mem_base (s : String) :
    ∀ v, ("to", v) ∉ (("codec:v", "copy") :: ("codec:a", "copy") :: ("ss", s) :: []) := by
  have h1 : "to" ≠ "codec:v" := by decide
  have h2 : "to" ≠ "codec:a" := by decide
  have h3 : "to" ≠ "ss" := by decide
  intro v hv
  simp only [List.mem_cons, List.not_mem_nil, or_false, Prod.mk.injEq] at hv
  rcases hv with ⟨h, -⟩ | ⟨h, -⟩ | ⟨h, -⟩
  · exact h1 h
  · exact h2 h
  · exact h3 h

/-! ### Lemmas about the planning loop -/

theorem planClip_ok_of_shape {od sp ext : String} {n i : Nat} {c : Clip}
    (h : c.2.length = 2 ∨ (c.2.length = 1 ∧ i = n - 1)) :
    ∃ j, planClip od sp ext n i c = Except.ok j := by
  obtain ⟨name, l⟩ := c
  rcases h with h2 | ⟨h1, hi⟩
  · obtain ⟨s, e, he⟩ := List.length_eq_two.mp h2
    subst he
    refine ⟨{ source_path := sp, output_path := osPathJoin od (name ++ "." ++ ext),
              options := [("codec:v", "copy"), ("codec:a", "copy"), ("ss", s)]
                ++ (if e ≠ "" then [("to", e)] else []) }, ?_⟩
    unfold planClip
    rw [if_pos (by simp), if_neg (by simp)]
  · obtain ⟨t, ht⟩ := List.length_eq_one.mp h1
    subst ht
    subst hi
    refine ⟨{ source_path := sp, output_path := osPathJoin od (name ++ "." ++ ext),
              options := [("codec:v", "copy"), ("codec:a", "copy"), ("ss", t)] }, ?_⟩
    unfold planClip
    rw [if_pos (by simp), if_pos (by simp)]

theorem planClip_ok_opts {od sp ext : String} {n i : Nat} {c : Clip} {j : Job}
    (h : planClip od sp ext n i c = Except.ok j) :
    j.source_path = sp ∧ j.output_path = osPathJoin od (c.1 ++ "." ++ ext) ∧
    j.options.lookup "codec:v" = some "copy" ∧ j.options.lookup "codec:a" = some "copy" ∧
    ∃ s, c.2.head? = some s ∧ j.options.lookup "ss" = some s := by
  unfold planClip at h
  split at h
  · split at h
    · split at h
      · rename_i t ht
        cases h
        exact ⟨rfl, rfl, (lookup_base t []).1, (lookup_base t []).2.1,
          t, by rw [ht]; rfl, (lookup_base t []).2.2⟩
      · exact absurd h (by simp)
    · split at h
      · rename_i s e hse
        cases h
        exact ⟨rfl, rfl, (lookup_base s _).1, (lookup_base s _).2.1,
          s, by rw [hse]; rfl, (lookup_base s _).2.2⟩
      · exact absurd h (by simp)
  · exact absurd h (by simp)

theorem planClips_get {od sp ext : String} {n : Nat} : ∀ {rest : List Clip} {i : Nat}
    {js : List Job}, planClips od sp ext n i rest = Except.ok js →
    ∀ k c, rest[k]? = some c →
      ∃ j, js[k]? = some j ∧ planClip od sp ext n (i + k) c = Except.ok j := by
  intro rest
  induction rest with
  | nil => intro i js h k c hk; simp at hk
  | cons c' rest ih =>
    intro i js h k c hk
    cases hpc : planClip od sp ext n i c' with
    | error e => simp [planClips, hpc] at h
    | ok j0 =>
      cases hrec : planClips od sp ext n (i + 1) rest with
      | error e => simp [planClips, hpc, hrec] at h
      | ok js0 =>
        simp only [planClips, hpc, hrec] at h
        cases h
        match k with
        | 0 =>
          simp only [List.getElem?_cons_zero, Option.some.injEq] at hk
          subst hk
          exact ⟨j0, by simp, by simpa using hpc⟩
        | k2 + 1 =>
          simp only [List.getElem?_cons_succ] at hk
          obtain ⟨j, hj, hpj⟩ := ih hrec k2 c hk
          refine ⟨j, by simpa using hj, ?_⟩
          have : i + (k2 + 1) = i + 1 + k2 := by omega
          rw [this]
          exact hpj

theorem planClips_length {od sp ext : String} {n : Nat} : ∀ {rest : List Clip} {i : Nat}
    {js : List Job}, planClips od sp ext n i rest = Except.ok js → js.length = rest.length := by
  intro rest
  induction rest with
  | nil => intro i js h; cases h; rfl
  | cons c' rest ih =>
    intro i js h
    cases hpc : planClip od sp ext n i c' with
    | error e => simp [planClips, hpc] at h
    | ok j0 =>
      cases hrec : planClips od sp ext n (i + 1) rest with
      | error e => simp [planClips, hpc, hrec] at h
      | ok js0 =>
        simp only [planClips, hpc, hrec] at h
        cases h
        simp [ih hrec]

theorem planClips_ok {od sp ext : String} {n : Nat} : ∀ {rest : List Clip} {i : Nat},
    (∀ k c, rest[k]? = some c → c.2.length = 2 ∨ (c.2.length = 1 ∧ i + k = n - 1)) →
    ∃ js, planClips od sp ext n i rest = Except.ok js := by
  intro rest
  induction rest with
  | nil => exact fun _ => ⟨[], rfl⟩
  | cons c rest ih =>
    intro i hshape
    have h0 := hshape 0 c (by simp)
    rw [Nat.add_zero] at h0
    obtain ⟨j, hj⟩ := @planClip_ok_of_shape od sp ext n i c h0
    obtain ⟨js, hjs⟩ := ih (i := i + 1) (fun k c2 hk => by
      have := hshape (k + 1) c2 (by simpa using hk)
      rwa [show i + (k + 1) = i + 1 + k by omega] at this)
    exact ⟨j :: js, by simp only [planClips, hj, hjs]⟩

theorem planClips_mem {od sp ext : String} {n : Nat} : ∀ {rest : List Clip} {i : Nat}
    {js : List Job}, planClips od sp ext n i rest = Except.ok js →
    ∀ j ∈ js, ∃ i2 c, planClip od sp ext n i2 c = Except.ok j := by
  intro rest
  induction rest with
  | nil => intro i js h j hj; cases h; simp at hj
  | cons c' rest ih =>
    intro i js h j hj
    cases hpc : planClip od sp ext n i c' with
    | error e => simp [planClips, hpc] at h
    | ok j0 =>
      cases hrec : planClips od sp ext n (i + 1) rest with
      | error e => simp [planClips, hpc, hrec] at h
      | ok js0 =>
        simp only [planClips, hpc, hrec] at h
        cases h
        rcases List.mem_cons.mp hj with rfl | hj2
        · exact ⟨i, c', hpc⟩
        · exact ih hrec j hj2

/-! ### Lemmas about per-source planning -/

theorem fix_shape_for_plan {cr fixed : List Clip} (hfix : fix_intervals cr = Except.ok fixed) :
    ∀ k c, fixed[k]? = some c →
      c.2.length = 2 ∨ (c.2.length = 1 ∧ 0 + k = fixed.length - 1) := by
  intro k c hk
  obtain ⟨h12, himp⟩ := fix_intervals_shape hfix k c hk
  have hlen := fix_intervals_length hfix
  by_cases hk2 : k = cr.length - 1
  · rcases h12 with h1 | h2
    · exact Or.inr ⟨h1, by omega⟩
    · exact Or.inl h2
  · exact Or.inl (himp hk2)

theorem planSource_ok_of_good {od sp : String} {cr : List Clip}
    (hgood : ∀ c ∈ cr, c.2.length = 1 ∨ c.2.length = 2) :
    ∃ js, planSource od sp cr = Except.ok js := by
  obtain ⟨fixed, hfix⟩ := fix_intervals_ok_of_good hgood
  obtain ⟨js, hjs⟩ := @planClips_ok od sp (sourceExt sp) fixed.length fixed 0
    (fix_shape_for_plan hfix)
  exact ⟨js, by simp only [planSource, hfix, hjs]⟩

theorem planSource_error {od sp : String} {cr : List Clip} {msg : String}
    (h : planSource od sp cr = Except.error msg) :
    ∃ c ∈ cr, (c.2.length = 0 ∨ 3 ≤ c.2.length) ∧ msg = conflictMsg c.1 c.2 := by
  cases hfix : fix_intervals cr with
  | error e =>
    simp only [planSource, hfix] at h
    cases h
    exact fix_intervals_error hfix
  | ok fixed =>
    simp only [planSource, hfix] at h
    obtain ⟨js, hjs⟩ := @planClips_ok od sp (sourceExt sp) fixed.length fixed 0
      (fix_shape_for_plan hfix)
    rw [hjs] at h
    exact absurd h (by simp)

theorem planSource_ok_good {od sp : String} {cr : List Clip} {js : List Job}
    (h : planSource od sp cr = Except.ok js) :
    ∀ c ∈ cr, c.2.length = 1 ∨ c.2.length = 2 := by
  cases hfix : fix_intervals cr with
  | error e => simp [planSource, hfix] at h
  | ok fixed => exact fix_intervals_ok_good hfix

theorem planSource_mem_opts {od sp : String} {cr : List Clip} {js : List Job}
    (h : planSource od sp cr = Except.ok js) :
    ∀ j ∈ js, j.options.lookup "codec:v" = some "copy" ∧
      j.options.lookup "codec:a" = some "copy" := by
  cases hfix : fix_intervals cr with
  | error e => simp [planSource, hfix] at h
  | ok fixed =>
    simp only [planSource, hfix] at h
    intro j hj
    obtain ⟨i2, c, hpc⟩ := planClips_mem h j hj
    obtain ⟨-, -, hcv, hca, -⟩ := planClip_ok_opts hpc
    exact ⟨hcv, hca⟩

/-! ### Lemmas about the full run -/

theorem planSources_error_of_bad {od : String} : ∀ {sources : List SourceFile},
    (∃ s ∈ sources, ∃ c ∈ s.clip_ranges, c.2.length = 0 ∨ 3 ≤ c.2.length) →
    ∃ msg, planSources od sources = Except.error msg ∧
      ∃ s ∈ sources, ∃ c ∈ s.clip_ranges, (c.2.length = 0 ∨ 3 ≤ c.2.length) ∧
        ∃ pre, msg = pre ++ c.1 := by
  intro sources
  induction sources with
  | nil => rintro ⟨s, hs, -⟩; simp at hs
  | cons s0 rest ih =>
    rintro ⟨s, hs, c, hc, hbad⟩
    cases hps : planSource od s0.path s0.clip_ranges with
    | error e =>
      obtain ⟨c', hc', hbad', hmsg⟩ := planSource_error hps
      exact ⟨e, by simp only [planSources, hps], s0, List.mem_cons_self s0 rest, c', hc', hbad',
        conflictPrefix c'.2, by rw [hmsg]; rfl⟩
    | ok js =>
      have hgood := planSource_ok_good hps
      have hrest : ∃ s ∈ rest, ∃ c ∈ s.clip_ranges, c.2.length = 0 ∨ 3 ≤ c.2.length := by
        rcases List.mem_cons.mp hs with rfl | hs2
        · exact absurd (hgood c hc) (by omega)
        · exact ⟨s, hs2, c, hc, hbad⟩
      obtain ⟨msg, hmsg, s', hs', c', hc', hbad', hpre⟩ := ih hrest
      exact ⟨msg, by simp only [planSources, hps, hmsg], s', List.mem_cons_of_mem _ hs',
        c', hc', hbad', hpre⟩

theorem planSources_mem_opts {od : String} : ∀ {sources : List SourceFile} {jobs : List Job},
    planSources od sources = Except.ok jobs →
    ∀ j ∈ jobs, j.options.lookup "codec:v" = some "copy" ∧
      j.options.lookup "codec:a" = some "copy" := by
  intro sources
  induction sources with
  | nil => intro jobs h j hj; cases h; simp at hj
  | cons s0 rest ih =>
    intro jobs h j hj
    cases hps : planSource od s0.path s0.clip_ranges with
    | error e => simp [planSources, hps] at h
    | ok js =>
      cases hrec : planSources od rest with
      | error e => simp [planSources, hps, hrec] at h
      | ok more =>
        simp only [planSources, hps, hrec] at h
        cases h
        rcases List.mem_append.mp hj with hj2 | hj2
        · exact planSource_mem_opts hps j hj2
        · exact ih hrec j hj2

/-! ### The claims -/

/-- C2: for every well-formed clip sequence (all intervals of length 1 or
2) and every interior clip at position `i` (neither first nor last) whose
interval holds exactly one timestamp `t`, resolution sets that clip's
start to the end timestamp of the already-resolved clip at position
`i - 1` and its end to `t`, so clip `i`'s start equals clip `i - 1`'s
end; the resolved clip `i - 1` always has an end (its interval has two
entries), so the degenerate case cannot occur. -/
theorem claim2_interior_start_is_prev_end (cr out : List Clip) (i : Nat) (name t : String)
    (hwf : ∀ c ∈ cr, c.2.length = 1 ∨ c.2.length = 2)
    (hok : fix_intervals cr = Except.ok out)
    (hi : 0 < i) (hlast : i + 1 < cr.length)
    (hc : cr[i]? = some (name, [t])) :
    ∃ pc e, out[i - 1]? = some pc ∧ pc.2.length = 2 ∧ pc.2.getLast? = some e ∧
      out[i]? = some (name, [e, t]) := by
  obtain ⟨p, c2, hfo, houti, hcase⟩ := fix_intervals_get hok i (name, [t]) hc
  rcases hcase with ⟨hi0, -⟩ | ⟨k2, pc, hik, hp, houtp⟩
  · omega
  · subst hik
    subst hp
    have hk2lt : k2 < cr.length := by omega
    obtain ⟨c0, hc0⟩ : ∃ c0, cr[k2]? = some c0 := ⟨cr[k2], List.getElem?_eq_getElem hk2lt⟩
    obtain ⟨p0, c20, hfo0, hout0, -⟩ := fix_intervals_get hok k2 c0 hc0
    rw [houtp] at hout0
    cases Option.some.inj hout0
    have hpc2 : pc.2.length = 2 := fixOne_ok_len2 hfo0 (by omega)
    have hpcne : pc.2 ≠ [] := by
      intro hnil
      rw [hnil] at hpc2
      simp at hpc2
    obtain ⟨e, he⟩ := Option.isSome_iff_exists.mp (List.getLast?_isSome.mpr hpcne)
    obtain ⟨hname, hcases⟩ := fixOne_ok_cases hfo
    rcases hcases with ⟨hl, -⟩ | ⟨-, hi0, -⟩ | ⟨-, -, hil, -⟩ |
      ⟨-, -, -, pn2, pl2, pe, hps, hpe, hc2⟩
    · simp at hl
    · omega
    · omega
    · have hpcp : pc = (pn2, pl2) := Option.some.inj hps
      subst hpcp
      have he2 : pl2.getLast? = some e := he
      rw [he2] at hpe
      cases Option.some.inj hpe
      have hc2full : c2 = (name, [e, t]) := Prod.ext hname hc2
      refine ⟨(pn2, pl2), e, ?_, hpc2, he2, ?_⟩
      · exact houtp
      · rw [← hc2full]; exact houti

/-- C1: for every source file whose clip sequence is
`[A:[t1], B:[t2,t3], C:[t4]]`, resolution fills `A` to
`(00:00:00, t1)`, passes `B` through as `(t2, t3)` and leaves `C` as the
open-ended `(t4, absent)`; the planned jobs then carry seek-start
`00:00:00`/`t2`/`t4` and seek-end `t1`/`t3`/absent respectively. -/
theorem claim1_three_clip_resolution (od sp A B C t1 t2 t3 t4 : String)
    (h1 : t1 ≠ "") (h3 : t3 ≠ "") :
    fix_intervals [(A, [t1]), (B, [t2, t3]), (C, [t4])] =
      Except.ok [(A, ["00:00:00", t1]), (B, [t2, t3]), (C, [t4])] ∧
    ∃ j1 j2 j3, planSource od sp [(A, [t1]), (B, [t2, t3]), (C, [t4])] =
        Except.ok [j1, j2, j3] ∧
      j1.output_path = osPathJoin od (A ++ "." ++ sourceExt sp) ∧
      j1.options.lookup "ss" = some "00:00:00" ∧ j1.options.lookup "to" = some t1 ∧
      j2.output_path = osPathJoin od (B ++ "." ++ sourceExt sp) ∧
      j2.options.lookup "ss" = some t2 ∧ j2.options.lookup "to" = some t3 ∧
      j3.output_path = osPathJoin od (C ++ "." ++ sourceExt sp) ∧
      j3.options.lookup "ss" = some t4 ∧ j3.options.lookup "to" = none := by
  have hfix : fix_intervals [(A, [t1]), (B, [t2, t3]), (C, [t4])] =
      Except.ok [(A, ["00:00:00", t1]), (B, [t2, t3]), (C, [t4])] := rfl
  refine ⟨hfix,
    { source_path := sp, output_path := osPathJoin od (A ++ "." ++ sourceExt sp),
      options := [("codec:v", "copy"), ("codec:a", "copy"), ("ss", "00:00:00"), ("to", t1)] },
    { source_path := sp, output_path := osPathJoin od (B ++ "." ++ sourceExt sp),
      options := [("codec:v", "copy"), ("codec:a", "copy"), ("ss", t2), ("to", t3)] },
    { source_path := sp, output_path := osPathJoin od (C ++ "." ++ sourceExt sp),
      options := [("codec:v", "copy"), ("codec:a", "copy"), ("ss", t4)] },
    ?_, rfl, (lookup_base "00:00:00" _).2.2, lookup_to_cons "00:00:00" t1,
    rfl, (lookup_base t2 _).2.2, lookup_to_cons t2 t3,
    rfl, (lookup_base t4 []).2.2, lookup_to_nil t4⟩
  simp only [planSource, hfix]
  simp [planClips, planClip, h1, h3]

/-- C3: for every source file with exactly one clip carrying exactly one
timestamp `t1`, resolution produces start `00:00:00` and end `t1` (the
first-position rule wins over the last-position rule), and the planned
job carries both seek-start `00:00:00` and seek-end `t1` — the clip is
not open-ended. -/
theorem claim3_single_clip_first_rule_wins (od sp A t1 : String) (h1 : t1 ≠ "") :
    fix_intervals [(A, [t1])] = Except.ok [(A, ["00:00:00", t1])] ∧
    ∃ j, planSource od sp [(A, [t1])] = Except.ok [j] ∧
      j.options.lookup "ss" = some "00:00:00" ∧ j.options.lookup "to" = some t1 := by
  have hfix : fix_intervals [(A, [t1])] = Except.ok [(A, ["00:00:00", t1])] := rfl
  refine ⟨hfix,
    { source_path := sp, output_path := osPathJoin od (A ++ "." ++ sourceExt sp),
      options := [("codec:v", "copy"), ("codec:a", "copy"), ("ss", "00:00:00"), ("to", t1)] },
    ?_, (lookup_base "00:00:00" _).2.2, lookup_to_cons "00:00:00" t1⟩
  simp only [planSource, hfix]
  simp [planClips, planClip, h1]

/-- C4: for every source file with well-formed clip ranges, planning
succeeds and every planned job carries a seek-start option `ss` equal to
the start of the matching resolved interval; in particular every resolved
interval has a non-absent start. -/
theorem claim4_every_job_has_seek_start (od sp : String) (cr : List Clip)
    (hgood : ∀ c ∈ cr, c.2.length = 1 ∨ c.2.length = 2) :
    ∃ (fixed : List Clip) (jobs : List Job), fix_intervals cr = Except.ok fixed ∧
      planSource od sp cr = Except.ok jobs ∧ jobs.length = fixed.length ∧
      ∀ (k : Nat) (j : Job), jobs[k]? = some j →
        ∃ (c : Clip) (s : String), fixed[k]? = some c ∧ c.2.head? = some s ∧
          j.options.lookup "ss" = some s := by
  obtain ⟨fixed, hfix⟩ := fix_intervals_ok_of_good hgood
  obtain ⟨jobs, hjobs⟩ := @planClips_ok od sp (sourceExt sp) fixed.length fixed 0
    (fix_shape_for_plan hfix)
  have hlen : jobs.length = fixed.length := planClips_length hjobs
  refine ⟨fixed, jobs, hfix, by simp only [planSource, hfix, hjobs], hlen, ?_⟩
  intro k j hkj
  have hklt : k < jobs.length := (List.getElem?_eq_some.mp hkj).1
  have hklt2 : k < fixed.length := by omega
  obtain ⟨c, hc⟩ : ∃ c, fixed[k]? = some c := ⟨fixed[k], List.getElem?_eq_getElem hklt2⟩
  obtain ⟨j2, hj2, hpj⟩ := planClips_get hjobs k c hc
  rw [hkj] at hj2
  cases Option.some.inj hj2
  obtain ⟨-, -, -, -, s, hs, hss⟩ := planClip_ok_opts hpj
  exact ⟨c, s, hc, hs, hss⟩

/-- C5: for every resolved interval of a last clip whose spec supplied a
single timestamp (absent end), the planned job's option mapping omits the
seek-end key `to` entirely — no entry with key `to` exists, not even with
an empty value. -/
theorem claim5_absent_end_omits_to (od sp ext name t : String) (n : Nat) :
    ∃ j, planClip od sp ext n (n - 1) (name, [t]) = Except.ok j ∧
      j.options.lookup "to" = none ∧ ∀ v, ("to", v) ∉ j.options := by
  refine ⟨{ source_path := sp, output_path := osPathJoin od (name ++ "." ++ ext),
            options := [("codec:v", "copy"), ("codec:a", "copy"), ("ss", t)] },
    ?_, lookup_to_nil t, to_not_mem_base t⟩
  unfold planClip
  rw [if_pos (by simp), if_pos (by simp)]

/-- C6: any clip spec whose interval has length 0 or at least 3 makes the
run fail with a fatal error whose message names an offending clip, and
the failure happens during planning, before `asyncio.gather` runs any
task: zero ffmpeg invocations are executed. -/
theorem claim6_bad_interval_aborts_run (cfg : SplitsConfig)
    (hbad : ∃ s ∈ cfg.source_files, ∃ c ∈ s.clip_ranges,
      c.2.length = 0 ∨ 3 ≤ c.2.length) :
    ∃ msg, planMain cfg = Except.error msg ∧
      (∃ s ∈ cfg.source_files, ∃ c ∈ s.clip_ranges,
        (c.2.length = 0 ∨ 3 ≤ c.2.length) ∧ ∃ pre, msg = pre ++ c.1) ∧
      executedTasks cfg = [] := by
  obtain ⟨msg, hmsg, hinfo⟩ := @planSources_error_of_bad cfg.output_dir cfg.source_files hbad
  have hmain : planMain cfg = Except.error msg := hmsg
  exact ⟨msg, hmain, hinfo, by simp only [executedTasks, hmain]⟩

/-- C8 counterexample: `fix_intervals` does mutate the given clip
sequence — after resolving a source whose single clip supplied one
timestamp, the caller's clip ranges are no longer the original ones. -/
theorem claim8_counterexample :
    clipRangesAfterFix [("A", ["00:01:00"])] ≠ [("A", ["00:01:00"])] := by decide

/-- C8 (amended): `fix_intervals` is deterministic and performs no I/O,
but it fills missing timestamps by mutating the given interval lists in
place and returning the same sequence; the caller's clip ranges are
unchanged after resolution only when nothing was missing — when every
interval already carries two timestamps the sequence passes through
unchanged. -/
theorem claim8_inplace_passthrough_when_complete (cr : List Clip)
    (hfull : ∀ c ∈ cr, c.2.length = 2) :
    fix_intervals cr = Except.ok cr ∧ clipRangesAfterFix cr = cr := by
  have hfix : fix_intervals cr = Except.ok cr := fixAux_pass hfull
  exact ⟨hfix, by simp only [clipRangesAfterFix, hfix]⟩

/-- C9: every planned job's option set maps `codec:v` and `codec:a` to
`copy` (stream copy for video and audio), and every ffmpeg invocation
built from a job enables the overwrite-existing-output global option
`y`. -/
theorem claim9_copy_codecs_and_overwrite (cfg : SplitsConfig) (jobs : List Job)
    (hok : planMain cfg = Except.ok jobs) :
    (∀ j ∈ jobs, j.options.lookup "codec:v" = some "copy" ∧
      j.options.lookup "codec:a" = some "copy") ∧
    ∀ inv ∈ executedTasks cfg, inv.global_options = ["y"] := by
  constructor
  · exact planSources_mem_opts hok
  · intro inv hinv
    simp only [executedTasks, hok] at hinv
    obtain ⟨j, -, hje⟩ := List.mem_map.mp hinv
    rw [← hje]
    rfl

/-- C10: for every clip whose resolved interval carries two timestamps
with an empty-string end, planning silently omits the seek-end key `to`
and treats the clip as open-ended, regardless of the clip's position —
`to` is dropped whenever the resolved end is falsy. -/
theorem claim10_empty_end_omits_to (od sp ext name s : String) (n i : Nat) :
    ∃ j, planClip od sp ext n i (name, [s, ""]) = Except.ok j ∧
      j.options.lookup "ss" = some s ∧ j.options.lookup "to" = none ∧
      ∀ v, ("to", v) ∉ j.options := by
  refine ⟨{ source_path := sp, output_path := osPathJoin od (name ++ "." ++ ext),
            options := [("codec:v", "copy"), ("codec:a", "copy"), ("ss", s)] },
    ?_, (lookup_base s []).2.2, lookup_to_nil s, to_not_mem_base s⟩
  unfold planClip
  rw [if_pos (by simp), if_neg (by simp)]
  rfl

/-! ### Witnesses: the claim theorems evaluated at concrete inputs -/

theorem claim1_witness :
    ("00:10:00" : String) ≠ "" ∧ ("00:30:00" : String) ≠ "" ∧
    (fix_intervals [("A", ["00:10:00"]), ("B", ["00:20:00", "00:30:00"]), ("C", ["00:40:00"])] =
        Except.ok [("A", ["00:00:00", "00:10:00"]), ("B", ["00:20:00", "00:30:00"]),
          ("C", ["00:40:00"])] ∧
      ∃ (j1 j2 j3 : Job),
        planSource "out" "a.mp4" [("A", ["00:10:00"]), ("B", ["00:20:00", "00:30:00"]),
          ("C", ["00:40:00"])] = Except.ok [j1, j2, j3] ∧
        j1.output_path = osPathJoin "out" ("A" ++ "." ++ sourceExt "a.mp4") ∧
        j1.options.lookup "ss" = some "00:00:00" ∧ j1.options.lookup "to" = some "00:10:00" ∧
        j2.output_path = osPathJoin "out" ("B" ++ "." ++ sourceExt "a.mp4") ∧
        j2.options.lookup "ss" = some "00:20:00" ∧ j2.options.lookup "to" = some "00:30:00" ∧
        j3.output_path = osPathJoin "out" ("C" ++ "." ++ sourceExt "a.mp4") ∧
        j3.options.lookup "ss" = some "00:40:00" ∧ j3.options.lookup "to" = none) :=
  ⟨by decide, by decide, claim1_three_clip_resolution "out" "a.mp4" "A" "B" "C"
    "00:10:00" "00:20:00" "00:30:00" "00:40:00" (by decide) (by decide)⟩

theorem claim2_witness :
    (∀ c ∈ ([("A", ["00:01:00"]), ("B", ["00:02:00"]), ("C", ["00:03:00"])] : List Clip),
      c.2.length = 1 ∨ c.2.length = 2) ∧
    fix_intervals [("A", ["00:01:00"]), ("B", ["00:02:00"]), ("C", ["00:03:00"])] =
      Except.ok [("A", ["00:00:00", "00:01:00"]), ("B", ["00:01:00", "00:02:00"]),
        ("C", ["00:03:00"])] ∧
    0 < 1 ∧
    1 + 1 < ([("A", ["00:01:00"]), ("B", ["00:02:00"]), ("C", ["00:03:00"])] : List Clip).length ∧
    ([("A", ["00:01:00"]), ("B", ["00:02:00"]), ("C", ["00:03:00"])] : List Clip)[1]? =
      some ("B", ["00:02:00"]) ∧
    ∃ (pc : Clip) (e : String),
      ([("A", ["00:00:00", "00:01:00"]), ("B", ["00:01:00", "00:02:00"]),
        ("C", ["00:03:00"])] : List Clip)[1 - 1]? = some pc ∧
      pc.2.length = 2 ∧ pc.2.getLast? = some e ∧
      ([("A", ["00:00:00", "00:01:00"]), ("B", ["00:01:00", "00:02:00"]),
        ("C", ["00:03:00"])] : List Clip)[1]? = some ("B", [e, "00:02:00"]) :=
  ⟨by decide, rfl, by decide, by decide, rfl,
    claim2_interior_start_is_prev_end
      [("A", ["00:01:00"]), ("B", ["00:02:00"]), ("C", ["00:03:00"])]
      [("A", ["00:00:00", "00:01:00"]), ("B", ["00:01:00", "00:02:00"]), ("C", ["00:03:00"])]
      1 "B" "00:02:00" (by decide) rfl (by decide) (by decide) rfl⟩

theorem claim3_witness :
    ("00:10:00" : String) ≠ "" ∧
    (fix_intervals [("A", ["00:10:00"])] = Except.ok [("A", ["00:00:00", "00:10:00"])] ∧
      ∃ j, planSource "out" "a.mp4" [("A", ["00:10:00"])] = Except.ok [j] ∧
        j.options.lookup "ss" = some "00:00:00" ∧ j.options.lookup "to" = some "00:10:00") :=
  ⟨by decide, claim3_single_clip_first_rule_wins "out" "a.mp4" "A" "00:10:00" (by decide)⟩

theorem claim4_witness :
    (∀ c ∈ ([("A", ["00:00:05"])] : List Clip), c.2.length = 1 ∨ c.2.length = 2) ∧
    ∃ (fixed : List Clip) (jobs : List Job),
      fix_intervals [("A", ["00:00:05"])] = Except.ok fixed ∧
      planSource "out" "a.mp4" [("A", ["00:00:05"])] = Except.ok jobs ∧
      jobs.length = fixed.length ∧
      ∀ (k : Nat) (j : Job), jobs[k]? = some j →
        ∃ (c : Clip) (s : String), fixed[k]? = some c ∧ c.2.head? = some s ∧
          j.options.lookup "ss" = some s :=
  ⟨by decide, claim4_every_job_has_seek_start "out" "a.mp4" [("A", ["00:00:05"])] (by decide)⟩

theorem claim6_witness :
    (∃ s ∈ (⟨"out", [⟨"a.mp4", [("A", ([] : List String))]⟩]⟩ : SplitsConfig).source_files,
      ∃ c ∈ s.clip_ranges, c.2.length = 0 ∨ 3 ≤ c.2.length) ∧
    ∃ msg, planMain ⟨"out", [⟨"a.mp4", [("A", ([] : List String))]⟩]⟩ = Except.error msg ∧
      (∃ s ∈ (⟨"out", [⟨"a.mp4", [("A", ([] : List String))]⟩]⟩ : SplitsConfig).source_files,
        ∃ c ∈ s.clip_ranges, (c.2.length = 0 ∨ 3 ≤ c.2.length) ∧ ∃ pre, msg = pre ++ c.1) ∧
      executedTasks ⟨"out", [⟨"a.mp4", [("A", ([] : List String))]⟩]⟩ = [] :=
  ⟨by decide, claim6_bad_interval_aborts_run
    ⟨"out", [⟨"a.mp4", [("A", ([] : List String))]⟩]⟩ (by decide)⟩

theorem claim8_witness :
    (∀ c ∈ ([("A", ["00:00:01", "00:00:02"])] : List Clip), c.2.length = 2) ∧
    (fix_intervals [("A", ["00:00:01", "00:00:02"])] =
        Except.ok [("A", ["00:00:01", "00:00:02"])] ∧
      clipRangesAfterFix [("A", ["00:00:01", "00:00:02"])] = [("A", ["00:00:01", "00:00:02"])]) :=
  ⟨by decide, claim8_inplace_passthrough_when_complete
    [("A", ["00:00:01", "00:00:02"])] (by decide)⟩

theorem claim9_witness :
    planMain ⟨"out", [⟨"a.mp4", [("A", ["00:00:01", "00:00:02"])]⟩]⟩ =
      Except.ok [⟨"a.mp4", "out/A.mp4",
        [("codec:v", "copy"), ("codec:a", "copy"), ("ss", "00:00:01"), ("to", "00:00:02")]⟩] ∧
    ((∀ j ∈ [(⟨"a.mp4", "out/A.mp4",
        [("codec:v", "copy"), ("codec:a", "copy"), ("ss", "00:00:01"),
          ("to", "00:00:02")]⟩ : Job)],
      j.options.lookup "codec:v" = some "copy" ∧ j.options.lookup "codec:a" = some "copy") ∧
      ∀ inv ∈ executedTasks ⟨"out", [⟨"a.mp4", [("A", ["00:00:01", "00:00:02"])]⟩]⟩,
        inv.global_options = ["y"]) :=
  ⟨rfl, claim9_copy_codecs_and_overwrite
    ⟨"out", [⟨"a.mp4", [("A", ["00:00:01", "00:00:02"])]⟩]⟩
    [⟨"a.mp4", "out/A.mp4",
      [("codec:v", "copy"), ("codec:a", "copy"), ("ss", "00:00:01"), ("to", "00:00:02")]⟩] rfl⟩

end VSplitter
